import Mathlib

/-!
Verification of the crypto-toolkit core: the AES-GCM wrapper module
(src/aes-gcm.ts) and the text-encoder module (src/encoders.ts), shallowly
embedded over byte sequences modelled as lists of natural numbers below 256.
The platform cryptographic provider (WebCrypto) and the platform btoa/atob
functions are external collaborators of the repository; they are modelled
from the specification as noted on each definition.
-/

namespace CryptoToolkit

/-- Error taxonomy of the system: local validation errors raised by the
repository code, and provider-originated errors. -/
inductive CryptoError where
  | invalidKeyLength
  | invalidIvLength
  | operationError
  | authenticationFailure
deriving DecidableEq

/-- Errors of the text-encoder layer. -/
inductive JsError where
  | invalidEncoding
  | invalidCharacter
  | invalidInputType
deriving DecidableEq

/-! ## Text encoder (from src/encoders.ts) -/

/-- The 64-character standard Base64 alphabet, RFC 4648. -/
def b64Alphabet : List Char :=
  ("ABCDEFGHIJKLMNOPQRSTUVWXYZabcdefghijklmnopqrstuvwxyz0123456789+/").toList

/-- Character for a six-bit group. -/
def b64Char (n : Nat) : Char := b64Alphabet.getD n ('=')

/-- Inverse alphabet lookup used by forgiving Base64 decoding: the six-bit
value of a character, or none when the character is outside the alphabet. -/
def b64Sextet (c : Char) : Option Nat :=
  let n := c.toNat
  if 65 ≤ n ∧ n ≤ 90 then some (n - 65)
  else if 97 ≤ n ∧ n ≤ 122 then some (n - 71)
  else if 48 ≤ n ∧ n ≤ 57 then some (n + 4)
  else if n = 43 then some 62
  else if n = 47 then some 63
  else none

/-- ASCII whitespace, as stripped by forgiving Base64 decoding. -/
def isB64Ws (c : Char) : Bool :=
  c == '\t' || c == '\n' || c == '\x0c' || c == '\r' || c == ' '

/-- Base64 encoding of a byte list, three bytes to four characters with
trailing = padding. -/
def encodeChunks : List Nat → List Char
  | [] => []
  | [a] => [b64Char (a / 4), b64Char (a % 4 * 16), '=', '=']
  | [a, b] => [b64Char (a / 4), b64Char (a % 4 * 16 + b / 16), b64Char (b % 16 * 4), '=']
  | a :: b :: c :: rest =>
      b64Char (a / 4) :: b64Char (a % 4 * 16 + b / 16) ::
        b64Char (b % 16 * 4 + c / 64) :: b64Char (c % 64) :: encodeChunks rest

/-- Modelled from the spec: the platform btoa function, absent from this
repository. Encodes a binary string (here: the list of its character codes)
into Base64, failing on any code point above 255. -/
def btoa (codes : List Nat) : Except JsError (List Char) :=
  if codes.all (· < 256) then .ok (encodeChunks codes) else .error .invalidCharacter

/-- Six-bit groups back to bytes, four characters to three bytes; the final
group of two or three sextets yields one or two bytes. -/
def decodeChunks : List Nat → List Nat
  | [] => []
  | [_] => []
  | [a, b] => [a * 4 + b / 16]
  | [a, b, c] => [a * 4 + b / 16, b % 16 * 16 + c / 4]
  | a :: b :: c :: d :: rest =>
      (a * 4 + b / 16) :: (b % 16 * 16 + c / 4) :: (c % 4 * 64 + d) :: decodeChunks rest

/-- Removal of at most two trailing = characters, step 2 of forgiving
Base64 decoding: two are removed when the input ends with two, else one
when it ends with one, else none. -/
def stripPad2 (l : List Char) : List Char :=
  if l.reverse.take 2 = ['=', '='] then (l.reverse.drop 2).reverse
  else if l.reverse.take 1 = ['='] then (l.reverse.drop 1).reverse
  else l

/-- Modelled from the spec: the platform atob function, absent from this
repository, per the WHATWG forgiving-base64 algorithm: strip ASCII
whitespace; when the length is a multiple of four remove up to two trailing
= characters; fail when the remaining length is 1 mod 4 or a character is
outside the alphabet; otherwise decode six-bit groups to bytes. -/
def atob (s : List Char) : Except JsError (List Nat) :=
  let d0 := s.filter (fun c => !(isB64Ws c))
  let d := if d0.length % 4 = 0 then stripPad2 d0 else d0
  if d.length % 4 = 1 then .error .invalidEncoding
  else if d.all (fun c => (b64Sextet c).isSome) then .ok (decodeChunks (d.filterMap b64Sextet))
  else .error .invalidEncoding

/-- Source toBase64: builds the binary string whose character codes are the
input bytes and applies btoa. -/
def toBase64 (bytes : List Nat) : Except JsError String :=
  (btoa bytes).map fun cs => String.mk cs

/-- Source fromBase64: applies atob and reads back the character codes of
the resulting binary string as bytes. -/
def fromBase64 (b64 : String) : Except JsError (List Nat) :=
  atob b64.toList

/-- The while loop of source toBase64Url: strip every trailing = character. -/
def stripAllPad (l : List Char) : List Char :=
  (l.reverse.dropWhile (fun c => c == '=')).reverse

/-- The one-pass character translation of source toBase64Url. -/
def b64ToUrlChar (c : Char) : Char :=
  if c = '+' then '-' else if c = '/' then '_' else c

/-- Source toBase64Url: Base64, strip trailing padding, translate + to -
and / to _. -/
def toBase64Url (bytes : List Nat) : Except JsError String :=
  (toBase64 bytes).map fun s => String.mk ((stripAllPad s.toList).map b64ToUrlChar)

/-- The reverse character translation of source fromBase64Url. -/
def urlToB64Char (c : Char) : Char :=
  if c = '-' then '+' else if c = '_' then '/' else c

/-- Source fromBase64Url: translate - to + and _ to /, append the padding
derived from the input length mod 4, and delegate to fromBase64. -/
def fromBase64Url (b64url : String) : Except JsError (List Nat) :=
  let l := (b64url.toList.map urlToB64Char) ++ List.replicate (3 - (b64url.toList.length + 3) % 4) ('=')
  fromBase64 (String.mk l)

/-- A dynamically typed value passed to bytesToUtf8: an ArrayBuffer holding
bytes, an ArrayBuffer view over bytes, or a value of any other type. -/
inductive JsValue where
  | arrayBuffer (data : List Nat)
  | view (data : List Nat)
  | other
deriving DecidableEq

/-- Source bytesToUtf8, with the platform TextDecoder abstracted as the
parameter decode: reject any value that is neither an ArrayBuffer nor an
ArrayBuffer view before decoding, otherwise decode the underlying bytes. -/
def bytesToUtf8 (decode : List Nat → String) : JsValue → Except JsError String
  | .arrayBuffer d => .ok (decode d)
  | .view d => .ok (decode d)
  | .other => .error .invalidInputType

/-! ## AES-GCM module (from src/aes-gcm.ts) -/

/-- An imported AES-GCM key handle wrapping its raw 32-byte material. -/
structure Key where
  raw : List Nat
deriving DecidableEq

/-- The parameter object handed to the provider by encrypt and decrypt. -/
structure GcmParams where
  iv : List Nat
  aad : Option (List Nat)
  tagLength : Nat
deriving DecidableEq

/-- The platform crypto provider interface used by the module: key import,
AEAD encrypt and decrypt, and secure random bytes. getRandomValues fills a
caller-allocated array, so its result always has the requested length. -/
structure SubtleProvider where
  importKeyOp : List Nat → Except CryptoError Key
  encryptOp : GcmParams → Key → List Nat → Except CryptoError (List Nat)
  decryptOp : GcmParams → Key → List Nat → Except CryptoError (List Nat)
  getRandomValues : (n : Nat) → { l : List Nat // l.length = n }

/-- Default IV length in bytes for AES-GCM. -/
def DEFAULT_IV_BYTES : Nat := 12

/-- Default authentication tag length in bits for AES-GCM. -/
def DEFAULT_TAG_BITS : Nat := 128

/-- Options bag of encrypt. -/
structure AesGcmOptions where
  iv : Option (List Nat) := none
  aad : Option (List Nat) := none
  tagLength : Option Nat := none

/-- Options bag of decrypt (the iv member is omitted). -/
structure DecryptOptions where
  aad : Option (List Nat) := none
  tagLength : Option Nat := none

/-- Source importKey: reject any raw key whose length is not 32 before
touching the provider, then import a defensive copy of the bytes. -/
def importKey (crypto : SubtleProvider) (rawKey : List Nat) : Except CryptoError Key :=
  if rawKey.length ≠ 32 then .error .invalidKeyLength
  else crypto.importKeyOp rawKey

/-- Source randomIv: a fresh 12-byte array filled by the provider. -/
def randomIv (crypto : SubtleProvider) : List Nat :=
  (crypto.getRandomValues DEFAULT_IV_BYTES).val

/-- Result object of encrypt. -/
structure EncryptResult where
  iv : List Nat
  ciphertext : List Nat
deriving DecidableEq

/-- Source encrypt: default the iv to a fresh random nonce, validate its
length, default the tag length to 128, and forward everything verbatim to
the provider. -/
def encrypt (crypto : SubtleProvider) (key : Key) (plaintext : List Nat)
    (opts : AesGcmOptions) : Except CryptoError EncryptResult :=
  let iv := opts.iv.getD (randomIv crypto)
  if iv.length ≠ DEFAULT_IV_BYTES then .error .invalidIvLength
  else
    let tagLength := opts.tagLength.getD DEFAULT_TAG_BITS
    (crypto.encryptOp ⟨iv, opts.aad, tagLength⟩ key plaintext).map fun ct => ⟨iv, ct⟩

/-- Source decrypt: validate the iv length, default the tag length to 128,
and forward everything verbatim to the provider. -/
def decrypt (crypto : SubtleProvider) (key : Key) (iv : List Nat) (ciphertext : List Nat)
    (opts : DecryptOptions) : Except CryptoError (List Nat) :=
  if iv.length ≠ DEFAULT_IV_BYTES then .error .invalidIvLength
  else
    let tagLength := opts.tagLength.getD DEFAULT_TAG_BITS
    crypto.decryptOp ⟨iv, opts.aad, tagLength⟩ key ciphertext

/-- The tag lengths admitted by the provider per the specification. -/
def legalTag (t : Nat) : Bool :=
  t = 96 || t = 104 || t = 112 || t = 120 || t = 128

/-- Modelled from the spec: the authenticated ciphertext produced by the
ideal provider, determined by and binding the key bytes, the nonce, the
associated data (absent data is the empty byte string, as in GCM), the tag
length, and the plaintext. Self-delimiting length prefixes make the
encoding injective and the duplicated plaintext makes every single-symbol
change detectable. -/
def gcmEncode (key iv aadB : List Nat) (t : Nat) (pt : List Nat) : List Nat :=
  [key.length] ++ key ++ [iv.length] ++ iv ++ [aadB.length] ++ aadB ++ [t] ++ pt ++ pt

/-- The parameter-determined prefix of the ideal ciphertext. -/
def gcmHeader (key iv aadB : List Nat) (t : Nat) : List Nat :=
  [key.length] ++ key ++ [iv.length] ++ iv ++ [aadB.length] ++ aadB ++ [t]

/-- Modelled from the spec: the AEAD encrypt operation of the platform
provider (out of scope of the repository), as an ideal authenticated
encryption: reject an illegal tag length with a provider-originated error,
otherwise produce the authenticated ciphertext. -/
def idealEncryptOp (p : GcmParams) (k : Key) (pt : List Nat) : Except CryptoError (List Nat) :=
  if legalTag p.tagLength then .ok (gcmEncode k.raw p.iv (p.aad.getD []) p.tagLength pt)
  else .error .operationError

/-- Modelled from the spec: the AEAD decrypt operation of the platform
provider, failing closed: it succeeds exactly when the ciphertext is a
valid authenticated encryption under precisely the supplied key, nonce,
associated data and tag length, and otherwise reveals nothing. -/
def idealDecryptOp (p : GcmParams) (k : Key) (ct : List Nat) : Except CryptoError (List Nat) :=
  if legalTag p.tagLength then
    let hd := gcmHeader k.raw p.iv (p.aad.getD []) p.tagLength
    let r := ct.drop hd.length
    let m := r.length / 2
    if ct.take hd.length = hd ∧ r.length % 2 = 0 ∧ r.take m = r.drop m then .ok (r.take m)
    else .error .authenticationFailure
  else .error .operationError

/-- The ideal provider, parameterized by its random source. -/
def idealProvider (rnd : (n : Nat) → { l : List Nat // l.length = n }) : SubtleProvider where
  importKeyOp := fun data => .ok ⟨data⟩
  encryptOp := idealEncryptOp
  decryptOp := idealDecryptOp
  getRandomValues := rnd

/-- Flip bit j of the byte at position i. -/
def flipBit (l : List Nat) (i j : Nat) : List Nat :=
  l.set i ((l.getD i 0) ^^^ 2 ^ j)

/-- Whether an Except result is a success. -/
def isOkE {ε α : Type} : Except ε α → Bool
  | .ok _ => true
  | .error _ => false

/-! ## Reference-level view of encrypt (for buffer identity) -/

/-- The heap of byte buffers; a buffer reference is a natural-number
index into it. -/
abbrev Heap := List (List Nat)

/-- Result object of encrypt at the reference level: which buffers the two
fields of the returned object point at. -/
structure EncRefResult where
  iv : Nat
  ciphertext : Nat
deriving DecidableEq

/-- Source encrypt in the caller-supplied-iv case, at buffer-identity
level over an explicit heap, with the ideal provider: the iv is read
through the caller reference and validated, the provider produces a fresh
ciphertext buffer, and the returned object holds the caller iv reference
itself together with the fresh reference. -/
def encryptRef (h : Heap) (key : Key) (ptRef : Nat) (ivRef : Nat)
    (aad : Option (List Nat)) (tl : Option Nat) : Except CryptoError (Heap × EncRefResult) :=
  if (h.getD ivRef []).length ≠ DEFAULT_IV_BYTES then .error .invalidIvLength
  else if legalTag (tl.getD DEFAULT_TAG_BITS) then
    .ok (h ++ [gcmEncode key.raw (h.getD ivRef []) (aad.getD [])
          (tl.getD DEFAULT_TAG_BITS) (h.getD ptRef [])],
      ⟨ivRef, h.length⟩)
  else .error .operationError

/-- The six-bit groups of a byte list, without padding characters. -/
def sextets : List Nat → List Nat
  | [] => []
  | [a] => [a / 4, a % 4 * 16]
  | [a, b] => [a / 4, a % 4 * 16 + b / 16, b % 16 * 4]
  | a :: b :: c :: rest =>
      (a / 4) :: (a % 4 * 16 + b / 16) :: (b % 16 * 4 + c / 64) :: (c % 64) :: sextets rest

/-- How many = characters Base64 encoding appends for a byte list. -/
def padNum : List Nat → Nat
  | [] => 0
  | [_] => 2
  | [_, _] => 1
  | _ :: _ :: _ :: rest => padNum rest

/-- A deterministic random source for concrete instantiations. -/
def zeroRnd : (n : Nat) → { l : List Nat // l.length = n } :=
  fun n => ⟨List.replicate n 0, by simp⟩

/-- The inputs rejected by forgiving Base64 decoding: after removal of
ASCII whitespace and then of up to two trailing = characters (when the
remaining length is a multiple of four), the rest has length 1 mod 4 or
holds a character outside the 64-character alphabet. -/
def forgivingBad (l : List Char) : Prop :=
  ((if (l.filter (fun c => !(isB64Ws c))).length % 4 = 0
      then stripPad2 (l.filter (fun c => !(isB64Ws c)))
      else l.filter (fun c => !(isB64Ws c))).length % 4 = 1)
  ∨ ∃ c ∈ (if (l.filter (fun c => !(isB64Ws c))).length % 4 = 0
      then stripPad2 (l.filter (fun c => !(isB64Ws c)))
      else l.filter (fun c => !(isB64Ws c))), b64Sextet c = none

instance (l : List Char) : Decidable (forgivingBad l) := by
  unfold forgivingBad
  infer_instance

/-! ## Helper lemmas -/

theorem take_len_append {α : Type} (l₁ l₂ : List α) : (l₁ ++ l₂).take l₁.length = l₁ := by
  induction l₁ with
  | nil => simp
  | cons a t ih => simp [ih]

theorem drop_len_append {α : Type} (l₁ l₂ : List α) : (l₁ ++ l₂).drop l₁.length = l₂ := by
  induction l₁ with
  | nil => simp
  | cons a t ih => simp [ih]

theorem gcmEncode_eq (k i a : List Nat) (t : Nat) (pt : List Nat) :
    gcmEncode k i a t pt = gcmHeader k i a t ++ (pt ++ pt) := by
  simp [gcmEncode, gcmHeader]

theorem gcmEncode_inj {k i a : List Nat} {t : Nat} {pt : List Nat}
    {k' i' a' : List Nat} {t' : Nat} {pt' : List Nat}
    (h : gcmEncode k i a t pt = gcmEncode k' i' a' t' pt') :
    k = k' ∧ i = i' ∧ a = a' ∧ t = t' ∧ pt = pt' := by
  unfold gcmEncode at h
  simp only [List.append_assoc, List.singleton_append, List.nil_append, List.cons_append,
    List.cons.injEq] at h
  obtain ⟨hlen, h1⟩ := h
  obtain ⟨hk, h2⟩ := List.append_inj h1 hlen
  subst hk
  simp only [List.cons.injEq] at h2
  obtain ⟨hlen2, h3⟩ := h2
  obtain ⟨hi, h4⟩ := List.append_inj h3 hlen2
  subst hi
  simp only [List.cons.injEq] at h4
  obtain ⟨hlen3, h5⟩ := h4
  obtain ⟨ha, h6⟩ := List.append_inj h5 hlen3
  subst ha
  simp only [List.cons.injEq] at h6
  obtain ⟨ht, h7⟩ := h6
  subst ht
  have hlen4 : pt.length = pt'.length := by
    have := congrArg List.length h7
    simp at this
    omega
  obtain ⟨hp, -⟩ := List.append_inj h7 hlen4
  exact ⟨rfl, rfl, rfl, rfl, hp⟩

theorem idealDecryptOp_ok_iff (p : GcmParams) (k : Key) (ct pt : List Nat) :
    idealDecryptOp p k ct = .ok pt ↔
      legalTag p.tagLength = true ∧
        ct = gcmEncode k.raw p.iv (p.aad.getD []) p.tagLength pt := by
  by_cases hl : legalTag p.tagLength = true
  · simp only [idealDecryptOp, hl, if_true, gcmEncode_eq, true_and]
    constructor
    · intro h
      split at h
      next hc =>
        obtain ⟨h1, h2, h3⟩ := hc
        simp only [Except.ok.injEq] at h
        subst h
        conv_lhs => rw [← List.take_append_drop
          (gcmHeader k.raw p.iv (p.aad.getD []) p.tagLength).length ct, h1]
        congr 1
        conv_lhs => rw [← List.take_append_drop
          ((ct.drop (gcmHeader k.raw p.iv (p.aad.getD []) p.tagLength).length).length / 2)
          (ct.drop (gcmHeader k.raw p.iv (p.aad.getD []) p.tagLength).length), h3]
        rw [← h3]
      next => exact absurd h (by simp)
    · intro h
      subst h
      have hdrop := drop_len_append (gcmHeader k.raw p.iv (p.aad.getD []) p.tagLength) (pt ++ pt)
      have hm : ((gcmHeader k.raw p.iv (p.aad.getD []) p.tagLength ++ (pt ++ pt)).drop
          (gcmHeader k.raw p.iv (p.aad.getD []) p.tagLength).length).length / 2 = pt.length := by
        rw [hdrop]; simp; omega
      rw [if_pos]
      · rw [hm, hdrop, take_len_append]
      · refine ⟨take_len_append _ _, ?_, ?_⟩
        · rw [hdrop]; simp; omega
        · rw [hm, hdrop, take_len_append, drop_len_append]
  · simp [idealDecryptOp, hl]

theorem decrypt_ok_iff (rnd : (n : Nat) → { l : List Nat // l.length = n })
    (key : Key) (iv ct : List Nat) (aad : Option (List Nat)) (tl : Option Nat)
    (out : List Nat) :
    decrypt (idealProvider rnd) key iv ct ⟨aad, tl⟩ = .ok out ↔
      iv.length = 12 ∧ legalTag (tl.getD 128) = true ∧
        ct = gcmEncode key.raw iv (aad.getD []) (tl.getD 128) out := by
  unfold decrypt
  by_cases hiv : iv.length = 12
  · simp only [DEFAULT_IV_BYTES, hiv, ne_eq, not_true_eq_false, if_false, DEFAULT_TAG_BITS]
    rw [show (idealProvider rnd).decryptOp = idealDecryptOp from rfl,
      idealDecryptOp_ok_iff]
    simp [hiv]
  · simp [DEFAULT_IV_BYTES, hiv]

theorem encrypt_ok_iff (rnd : (n : Nat) → { l : List Nat // l.length = n })
    (key : Key) (pt iv : List Nat) (aad : Option (List Nat)) (tl : Option Nat)
    (res : EncryptResult) :
    encrypt (idealProvider rnd) key pt ⟨some iv, aad, tl⟩ = .ok res ↔
      iv.length = 12 ∧ legalTag (tl.getD 128) = true ∧
        res = ⟨iv, gcmEncode key.raw iv (aad.getD []) (tl.getD 128) pt⟩ := by
  unfold encrypt
  by_cases hiv : iv.length = 12
  · simp only [Option.getD_some, DEFAULT_IV_BYTES, hiv, ne_eq, not_true_eq_false, if_false,
      DEFAULT_TAG_BITS]
    rw [show (idealProvider rnd).encryptOp = idealEncryptOp from rfl]
    unfold idealEncryptOp
    by_cases hl : legalTag (tl.getD 128) = true
    · simp only [hl, if_true, Except.map, Except.ok.injEq, true_and, hiv]
      constructor
      · intro h; exact h.symm
      · intro h; exact h.symm
    · simp [hl, Except.map]
  · simp [DEFAULT_IV_BYTES, hiv]

theorem flipBit_length (l : List Nat) (i j : Nat) : (flipBit l i j).length = l.length := by
  simp [flipBit]

theorem flipBit_getElem?_ne {l : List Nat} {i j q : Nat} (h : q ≠ i) :
    (flipBit l i j)[q]? = l[q]? := by
  rw [flipBit, List.getElem?_set_ne (fun he => h he.symm)]

theorem flipBit_ne {l : List Nat} {i j : Nat} (hi : i < l.length) :
    flipBit l i j ≠ l := by
  intro h
  have h1 : (flipBit l i j)[i]? = l[i]? := by rw [h]
  rw [flipBit, List.getElem?_set_self (by simpa using hi),
    List.getElem?_eq_getElem hi] at h1
  have h2 : l.getD i 0 = l[i] := by
    rw [List.getD_eq_getElem?_getD, List.getElem?_eq_getElem hi]; rfl
  rw [h2, Option.some.injEq] at h1
  have h4 : l[i] ^^^ (l[i] ^^^ 2 ^ j) = l[i] ^^^ l[i] := congrArg (l[i] ^^^ ·) h1
  rw [← Nat.xor_assoc, Nat.xor_self, Nat.zero_xor] at h4
  exact absurd h4 (Nat.pos_iff_ne_zero.mp (Nat.pos_pow_of_pos j (by norm_num)))

theorem ne_exists_getElem?_ne {out pt : List Nat} (hlen : out.length = pt.length)
    (hne : out ≠ pt) : ∃ d, d < pt.length ∧ out[d]? ≠ pt[d]? := by
  by_contra hall
  push_neg at hall
  refine hne (List.ext_getElem? fun n => ?_)
  by_cases hn : n < pt.length
  · exact hall n hn
  · rw [List.getElem?_eq_none (by omega), List.getElem?_eq_none (by omega)]

theorem dup_getElem?_fst {hd pt : List Nat} {d : Nat} (hd' : d < pt.length) :
    (hd ++ (pt ++ pt))[hd.length + d]? = pt[d]? := by
  rw [List.getElem?_append_right (by omega)]
  have : hd.length + d - hd.length = d := by omega
  rw [this, List.getElem?_append_left hd']

theorem dup_getElem?_snd (hd pt : List Nat) (d : Nat) :
    (hd ++ (pt ++ pt))[hd.length + pt.length + d]? = pt[d]? := by
  rw [List.getElem?_append_right (by omega)]
  have h1 : hd.length + pt.length + d - hd.length = pt.length + d := by omega
  rw [h1, List.getElem?_append_right (by omega)]
  have h2 : pt.length + d - pt.length = d := by omega
  rw [h2]

theorem flip_not_encoding {k iv a : List Nat} {t : Nat} {pt out : List Nat} {i j : Nat}
    (hi : i < (gcmEncode k iv a t pt).length) (hout : out ≠ pt)
    (h : flipBit (gcmEncode k iv a t pt) i j = gcmEncode k iv a t out) : False := by
  have hlen : out.length = pt.length := by
    have := congrArg List.length h
    rw [flipBit_length] at this
    simp only [gcmEncode_eq, List.length_append] at this
    omega
  obtain ⟨d, hd, hne⟩ := ne_exists_getElem?_ne hlen hout
  have hd' : d < out.length := by omega
  set n := (gcmHeader k iv a t).length with hn
  have q1out : (gcmEncode k iv a t out)[n + d]? = out[d]? := by
    rw [gcmEncode_eq]; exact dup_getElem?_fst hd'
  have q1pt : (gcmEncode k iv a t pt)[n + d]? = pt[d]? := by
    rw [gcmEncode_eq]; exact dup_getElem?_fst hd
  have q2out : (gcmEncode k iv a t out)[n + pt.length + d]? = out[d]? := by
    rw [gcmEncode_eq, ← hlen]; exact dup_getElem?_snd _ _ _
  have q2pt : (gcmEncode k iv a t pt)[n + pt.length + d]? = pt[d]? := by
    rw [gcmEncode_eq]; exact dup_getElem?_snd _ _ _
  have e1 : n + d = i := by
    by_contra hne1
    exact hne (by rw [← q1out, ← h, flipBit_getElem?_ne hne1, q1pt])
  have e2 : n + pt.length + d = i := by
    by_contra hne2
    exact hne (by rw [← q2out, ← h, flipBit_getElem?_ne hne2, q2pt])
  have : pt.length = 0 := by omega
  omega

/-! ## Claims about the AES-GCM module -/

/-- Claim C1: for every 32-byte key admitted by importKey, every 12-byte
iv, every plaintext, and every aad and tagLength, decrypting the
ciphertext produced by encrypt with the same key, iv, aad and tagLength
returns exactly the plaintext. -/
theorem c1_encrypt_decrypt_roundtrip
    (rnd : (n : Nat) → { l : List Nat // l.length = n })
    (rawKey : List Nat) (hraw : rawKey.length = 32) (key : Key)
    (hkey : importKey (idealProvider rnd) rawKey = .ok key)
    (iv : List Nat) (hiv : iv.length = 12)
    (plaintext : List Nat) (aad : Option (List Nat)) (tagLength : Option Nat)
    (res : EncryptResult)
    (henc : encrypt (idealProvider rnd) key plaintext ⟨some iv, aad, tagLength⟩ = .ok res) :
    decrypt (idealProvider rnd) key iv res.ciphertext ⟨aad, tagLength⟩ = .ok plaintext := by
  obtain ⟨-, hl, hres⟩ := (encrypt_ok_iff rnd key plaintext iv aad tagLength res).mp henc
  exact (decrypt_ok_iff rnd key iv res.ciphertext aad tagLength plaintext).mpr
    ⟨hiv, hl, by rw [hres]⟩

/-- Witness for C1 at a concrete key, iv and plaintext. -/
theorem c1_witness :
    decrypt (idealProvider zeroRnd) ⟨List.replicate 32 1⟩ (List.replicate 12 2)
        (EncryptResult.ciphertext ⟨List.replicate 12 2,
          gcmEncode (List.replicate 32 1) (List.replicate 12 2) [] 128 [5, 6]⟩)
        ⟨none, none⟩ = .ok [5, 6] :=
  c1_encrypt_decrypt_roundtrip zeroRnd (List.replicate 32 1) (by simp)
    ⟨List.replicate 32 1⟩ (by rfl) (List.replicate 12 2) (by simp) [5, 6] none none
    ⟨List.replicate 12 2, gcmEncode (List.replicate 32 1) (List.replicate 12 2) [] 128 [5, 6]⟩
    (by rfl)

/-- Claim C2: decrypting an encrypt-produced ciphertext with a different
key, iv, aad (as byte content) or tagLength fails closed, and so does
decrypting after any single bit of the ciphertext is flipped; no plaintext
bytes are ever returned in these cases. -/
theorem c2_decrypt_fails_closed
    (rnd : (n : Nat) → { l : List Nat // l.length = n })
    (rawKey : List Nat) (hraw : rawKey.length = 32) (key : Key)
    (hkey : importKey (idealProvider rnd) rawKey = .ok key)
    (iv : List Nat) (hiv : iv.length = 12)
    (plaintext : List Nat) (aad : Option (List Nat)) (tagLength : Option Nat)
    (res : EncryptResult)
    (henc : encrypt (idealProvider rnd) key plaintext ⟨some iv, aad, tagLength⟩ = .ok res) :
    (∀ (key' : Key) (iv' : List Nat) (aad' : Option (List Nat)) (tagLength' : Option Nat),
        key'.raw ≠ key.raw ∨ iv' ≠ iv ∨ aad'.getD [] ≠ aad.getD [] ∨
          tagLength'.getD DEFAULT_TAG_BITS ≠ tagLength.getD DEFAULT_TAG_BITS →
        isOkE (decrypt (idealProvider rnd) key' iv' res.ciphertext ⟨aad', tagLength'⟩) = false)
    ∧ (∀ i j : Nat, i < res.ciphertext.length → j < 8 →
        isOkE (decrypt (idealProvider rnd) key iv (flipBit res.ciphertext i j)
          ⟨aad, tagLength⟩) = false) := by
  obtain ⟨-, hl, hres⟩ := (encrypt_ok_iff rnd key plaintext iv aad tagLength res).mp henc
  have hct : res.ciphertext =
      gcmEncode key.raw iv (aad.getD []) (tagLength.getD 128) plaintext := by rw [hres]
  constructor
  · intro key' iv' aad' tagLength' hdiff
    cases hdec : decrypt (idealProvider rnd) key' iv' res.ciphertext ⟨aad', tagLength'⟩ with
    | error e => simp [isOkE]
    | ok out =>
      exfalso
      obtain ⟨-, -, hct'⟩ :=
        (decrypt_ok_iff rnd key' iv' res.ciphertext aad' tagLength' out).mp hdec
      obtain ⟨ek, ei, ea, et, -⟩ := gcmEncode_inj (hct'.symm.trans hct)
      simp only [DEFAULT_TAG_BITS] at hdiff
      rcases hdiff with hd | hd | hd | hd
      · exact hd ek
      · exact hd ei
      · exact hd ea
      · exact hd et
  · intro i j hi hj
    cases hdec : decrypt (idealProvider rnd) key iv (flipBit res.ciphertext i j)
        ⟨aad, tagLength⟩ with
    | error e => simp [isOkE]
    | ok out =>
      exfalso
      obtain ⟨-, -, hct'⟩ :=
        (decrypt_ok_iff rnd key iv (flipBit res.ciphertext i j) aad tagLength out).mp hdec
      rw [hct] at hct' hi
      by_cases hout : out = plaintext
      · subst hout
        exact flipBit_ne hi hct'
      · exact flip_not_encoding hi hout hct'

/-- Witness for C2: wrong key fails, and a flipped bit fails. -/
theorem c2_witness :
    isOkE (decrypt (idealProvider zeroRnd) ⟨List.replicate 32 3⟩ (List.replicate 12 2)
        (EncryptResult.ciphertext ⟨List.replicate 12 2,
          gcmEncode (List.replicate 32 1) (List.replicate 12 2) [] 128 [5, 6]⟩)
        ⟨none, none⟩) = false
    ∧ isOkE (decrypt (idealProvider zeroRnd) ⟨List.replicate 32 1⟩ (List.replicate 12 2)
        (flipBit (EncryptResult.ciphertext ⟨List.replicate 12 2,
          gcmEncode (List.replicate 32 1) (List.replicate 12 2) [] 128 [5, 6]⟩) 0 0)
        ⟨none, none⟩) = false := by
  have h := c2_decrypt_fails_closed zeroRnd (List.replicate 32 1) (by simp)
    ⟨List.replicate 32 1⟩ (by rfl) (List.replicate 12 2) (by simp) [5, 6] none none
    ⟨List.replicate 12 2, gcmEncode (List.replicate 32 1) (List.replicate 12 2) [] 128 [5, 6]⟩
    (by rfl)
  exact ⟨h.1 ⟨List.replicate 32 3⟩ (List.replicate 12 2) none none (Or.inl (by decide)),
    h.2 0 0 (by decide) (by decide)⟩

theorem idealEncryptOp_ne_ivError (p : GcmParams) (k : Key) (pt : List Nat) :
    idealEncryptOp p k pt ≠ Except.error CryptoError.invalidIvLength := by
  unfold idealEncryptOp
  split <;> simp

theorem idealDecryptOp_ne_ivError (p : GcmParams) (k : Key) (ct : List Nat) :
    idealDecryptOp p k ct ≠ Except.error CryptoError.invalidIvLength := by
  intro hcontra
  simp only [idealDecryptOp] at hcontra
  split at hcontra
  · split at hcontra <;> simp at hcontra
  · simp at hcontra

/-- Claim C3: encrypt with an explicit iv fails with the iv-length error
exactly when the iv is not 12 bytes, decrypt likewise; with the iv
omitted, encrypt obtains a fresh 12-byte nonce from the provider and
returns it in the iv field of the result. -/
theorem c3_iv_validation (rnd : (n : Nat) → { l : List Nat // l.length = n }) :
    (∀ (key : Key) (pt iv : List Nat) (aad : Option (List Nat)) (tl : Option Nat),
        (encrypt (idealProvider rnd) key pt ⟨some iv, aad, tl⟩ =
            .error .invalidIvLength ↔ iv.length ≠ 12))
    ∧ (∀ (key : Key) (iv ct : List Nat) (aad : Option (List Nat)) (tl : Option Nat),
        (decrypt (idealProvider rnd) key iv ct ⟨aad, tl⟩ =
            .error .invalidIvLength ↔ iv.length ≠ 12))
    ∧ (∀ (key : Key) (pt : List Nat) (aad : Option (List Nat)) (tl : Option Nat),
        encrypt (idealProvider rnd) key pt ⟨none, aad, tl⟩ ≠ .error .invalidIvLength
        ∧ ∀ res, encrypt (idealProvider rnd) key pt ⟨none, aad, tl⟩ = .ok res →
            res.iv = randomIv (idealProvider rnd) ∧ res.iv.length = 12) := by
  have hrandom : (randomIv (idealProvider rnd)).length = 12 := (rnd 12).2
  refine ⟨fun key pt iv aad tl => ?_, fun key iv ct aad tl => ?_, fun key pt aad tl => ?_⟩
  · unfold encrypt
    by_cases hiv : iv.length = 12
    · simp only [Option.getD_some, DEFAULT_IV_BYTES, hiv, ne_eq, not_true_eq_false, if_false,
        iff_false]
      intro hcontra
      cases hop : (idealProvider rnd).encryptOp
          ⟨iv, aad, tl.getD DEFAULT_TAG_BITS⟩ key pt with
      | ok c => rw [hop] at hcontra; simp [Except.map] at hcontra
      | error e =>
        rw [hop] at hcontra
        simp only [Except.map, Except.error.injEq] at hcontra
        subst hcontra
        exact idealEncryptOp_ne_ivError _ key pt hop
    · simp [DEFAULT_IV_BYTES, hiv]
  · unfold decrypt
    by_cases hiv : iv.length = 12
    · simp only [DEFAULT_IV_BYTES, hiv, ne_eq, not_true_eq_false, if_false, iff_false]
      exact idealDecryptOp_ne_ivError _ key ct
    · simp [DEFAULT_IV_BYTES, hiv]
  · constructor
    · unfold encrypt
      simp only [Option.getD_none, DEFAULT_IV_BYTES, hrandom, ne_eq, not_true_eq_false,
        if_false]
      intro hcontra
      cases hop : (idealProvider rnd).encryptOp
          ⟨randomIv (idealProvider rnd), aad, tl.getD DEFAULT_TAG_BITS⟩ key pt with
      | ok c => rw [hop] at hcontra; simp [Except.map] at hcontra
      | error e =>
        rw [hop] at hcontra
        simp only [Except.map, Except.error.injEq] at hcontra
        subst hcontra
        exact idealEncryptOp_ne_ivError _ key pt hop
    · intro res hres
      unfold encrypt at hres
      simp only [Option.getD_none, DEFAULT_IV_BYTES, hrandom, ne_eq, not_true_eq_false,
        if_false] at hres
      unfold idealProvider idealEncryptOp at hres
      by_cases hl : legalTag (tl.getD DEFAULT_TAG_BITS) = true
      · simp only [hl, if_true, Except.map, Except.ok.injEq] at hres
        rw [← hres]
        exact ⟨rfl, hrandom⟩
      · simp [hl, Except.map] at hres

/-- Witness for C3: a 2-byte explicit iv is rejected with the iv-length
error. -/
theorem c3_witness :
    encrypt (idealProvider zeroRnd) ⟨List.replicate 32 1⟩ [7]
      ⟨some [0, 0], none, none⟩ = .error .invalidIvLength :=
  ((c3_iv_validation zeroRnd).1 ⟨List.replicate 32 1⟩ [7] [0, 0] none none).mpr (by simp)

/-- Claim C4: encrypt and decrypt perform no local validation of
tagLength: for any tagLength value, legal or not, the result is exactly
the provider operation applied to parameters carrying that value verbatim
(128 when absent), so any failure for an illegal value originates from
the provider. -/
theorem c4_tagLength_forwarded (crypto : SubtleProvider) (key : Key) (pt iv ct : List Nat)
    (aad : Option (List Nat)) (tl : Option Nat) (hiv : iv.length = 12) :
    encrypt crypto key pt ⟨some iv, aad, tl⟩ =
      (crypto.encryptOp ⟨iv, aad, tl.getD 128⟩ key pt).map (fun c => ⟨iv, c⟩)
    ∧ decrypt crypto key iv ct ⟨aad, tl⟩ = crypto.decryptOp ⟨iv, aad, tl.getD 128⟩ key ct := by
  unfold encrypt decrypt
  simp [DEFAULT_IV_BYTES, DEFAULT_TAG_BITS, hiv]

/-- Witness for C4 at the illegal tagLength 999. -/
theorem c4_witness :
    encrypt (idealProvider zeroRnd) ⟨[]⟩ [1] ⟨some (List.replicate 12 0), none, some 999⟩ =
      ((idealProvider zeroRnd).encryptOp ⟨List.replicate 12 0, none, 999⟩ ⟨[]⟩ [1]).map
        (fun c => ⟨List.replicate 12 0, c⟩)
    ∧ decrypt (idealProvider zeroRnd) ⟨[]⟩ (List.replicate 12 0) [2] ⟨none, some 999⟩ =
      (idealProvider zeroRnd).decryptOp ⟨List.replicate 12 0, none, 999⟩ ⟨[]⟩ [2] :=
  c4_tagLength_forwarded (idealProvider zeroRnd) ⟨[]⟩ [1] (List.replicate 12 0) [2]
    none (some 999) (by simp)

/-- Claim C5: importKey fails with the key-length error exactly when the
raw key is not 32 bytes, succeeds on every 32-byte input, and on the
failure path its behaviour is independent of the provider, which is never
consulted. -/
theorem c5_importKey_validation (rnd : (n : Nat) → { l : List Nat // l.length = n })
    (raw : List Nat) :
    (importKey (idealProvider rnd) raw = .error .invalidKeyLength ↔ raw.length ≠ 32)
    ∧ (raw.length = 32 → importKey (idealProvider rnd) raw = .ok ⟨raw⟩)
    ∧ (∀ crypto crypto2 : SubtleProvider, raw.length ≠ 32 →
        importKey crypto raw = importKey crypto2 raw) := by
  unfold importKey
  by_cases h : raw.length = 32
  · simp [h, idealProvider]
  · simp [h]

/-- Witness for C5: a 31-byte key is rejected and a 32-byte key is
imported. -/
theorem c5_witness :
    importKey (idealProvider zeroRnd) (List.replicate 31 0) = .error .invalidKeyLength
    ∧ importKey (idealProvider zeroRnd) (List.replicate 32 0) = .ok ⟨List.replicate 32 0⟩ :=
  ⟨(c5_importKey_validation zeroRnd (List.replicate 31 0)).1.mpr (by simp),
    (c5_importKey_validation zeroRnd (List.replicate 32 0)).2.1 (by simp)⟩

/-- Claim C9: bytesToUtf8 fails with the input-type error exactly on
values that are neither an ArrayBuffer nor an ArrayBuffer view, without
consulting the decoder, and decodes every byte-sequence input. -/
theorem c9_bytesToUtf8_type_check (decode : List Nat → String) (v : JsValue) :
    (bytesToUtf8 decode v = .error .invalidInputType ↔ v = .other)
    ∧ (∀ d, v = .arrayBuffer d → bytesToUtf8 decode v = .ok (decode d))
    ∧ (∀ d, v = .view d → bytesToUtf8 decode v = .ok (decode d))
    ∧ (v = .other → ∀ decode2, bytesToUtf8 decode v = bytesToUtf8 decode2 v) := by
  cases v <;> simp [bytesToUtf8]

/-- Witness for C9: a non-byte value is rejected and a view is decoded. -/
theorem c9_witness :
    bytesToUtf8 (fun _ => ("x")) JsValue.other = .error .invalidInputType
    ∧ bytesToUtf8 (fun _ => ("x")) (JsValue.view [1]) = .ok ("x") :=
  ⟨(c9_bytesToUtf8_type_check (fun _ => ("x")) JsValue.other).1.mpr rfl,
    (c9_bytesToUtf8_type_check (fun _ => ("x")) (JsValue.view [1])).2.2.1 [1] rfl⟩

/-- Claim C10: with a caller-supplied iv, the iv field of the result of
encrypt is the caller reference itself, so a later write through that
reference is seen through the result, while the ciphertext reference is
fresh: distinct from every pre-existing reference, in particular from the
plaintext and iv references. -/
theorem c10_encrypt_iv_aliased_ct_fresh (h : Heap) (key : Key) (ptRef ivRef : Nat)
    (aad : Option (List Nat)) (tl : Option Nat)
    (hpt : ptRef < h.length) (hiv : ivRef < h.length)
    (h2 : Heap) (res : EncRefResult)
    (hok : encryptRef h key ptRef ivRef aad tl = .ok (h2, res)) :
    res.iv = ivRef
    ∧ (∀ b : List Nat, (h2.set ivRef b).getD res.iv [] = b)
    ∧ (∀ r : Nat, r < h.length → res.ciphertext ≠ r)
    ∧ res.ciphertext ≠ ivRef ∧ res.ciphertext ≠ ptRef
    ∧ h2.getD res.ciphertext [] =
        gcmEncode key.raw (h.getD ivRef []) (aad.getD [])
          (tl.getD DEFAULT_TAG_BITS) (h.getD ptRef []) := by
  unfold encryptRef at hok
  by_cases hivlen : (h.getD ivRef []).length = DEFAULT_IV_BYTES
  case neg =>
    rw [if_pos hivlen] at hok
    cases hok
  case pos =>
    rw [if_neg (by simpa using hivlen)] at hok
    by_cases hl : legalTag (tl.getD DEFAULT_TAG_BITS) = true
    case neg =>
      rw [if_neg hl] at hok
      cases hok
    case pos =>
      rw [if_pos hl] at hok
      have hpair := Except.ok.inj hok
      injection hpair with hh hr
      subst hh
      subst hr
      have hb : ivRef < (h ++ [gcmEncode key.raw (h.getD ivRef []) (aad.getD [])
          (tl.getD DEFAULT_TAG_BITS) (h.getD ptRef [])]).length := by
        simp only [List.length_append, List.length_cons, List.length_nil]
        omega
      refine ⟨rfl, ?_, ?_, ?_, ?_, ?_⟩
      · intro b
        dsimp only
        rw [List.getD_eq_getElem?_getD, List.getElem?_set_self hb]
        rfl
      · intro r hrlt
        dsimp only
        omega
      · dsimp only
        omega
      · dsimp only
        omega
      · dsimp only
        rw [List.getD_eq_getElem?_getD, List.getElem?_append_right (Nat.le_refl _)]
        simp

/-- Witness for C10 on a concrete two-buffer heap. -/
theorem c10_witness :
    ((⟨0, 2⟩ : EncRefResult).ciphertext ≠ (0 : Nat))
    ∧ ([List.replicate 12 0, [1, 2],
          gcmEncode (List.replicate 32 1) (List.replicate 12 0) [] 128 [1, 2]] : Heap).getD 2 []
        = gcmEncode (List.replicate 32 1) (List.replicate 12 0) [] 128 [1, 2] := by
  have h := c10_encrypt_iv_aliased_ct_fresh [List.replicate 12 0, [1, 2]]
    ⟨List.replicate 32 1⟩ 1 0 none none (by simp) (by simp)
    [List.replicate 12 0, [1, 2],
      gcmEncode (List.replicate 32 1) (List.replicate 12 0) [] 128 [1, 2]]
    ⟨0, 2⟩ (by rfl)
  exact ⟨h.2.2.2.1, h.2.2.2.2.2⟩

/-! ## Base64 lemmas -/

theorem chunk3_induction (P : List Nat → Prop) (h0 : P []) (h1 : ∀ a, P [a])
    (h2 : ∀ a b, P [a, b]) (h3 : ∀ a b c rest, P rest → P (a :: b :: c :: rest)) :
    ∀ B, P B
  | [] => h0
  | [a] => h1 a
  | [a, b] => h2 a b
  | a :: b :: c :: rest => h3 a b c rest (chunk3_induction P h0 h1 h2 h3 rest)

theorem b64Char_sextet : ∀ n, n < 64 → b64Sextet (b64Char n) = some n := by decide

theorem b64Char_ne_pad : ∀ n, n < 64 → b64Char n ≠ '=' := by decide

theorem b64Char_not_ws : ∀ n, n < 64 → isB64Ws (b64Char n) = false := by decide

theorem pad_not_ws : isB64Ws ('=') = false := by decide

theorem b64Char_url_inv : ∀ n, n < 64 →
    urlToB64Char (b64ToUrlChar (b64Char n)) = b64Char n := by decide

theorem sextets_lt : ∀ B : List Nat, (∀ b ∈ B, b < 256) → ∀ s ∈ sextets B, s < 64 := by
  intro B
  induction B using chunk3_induction with
  | h0 => intro _ s hs; simp [sextets] at hs
  | h1 a =>
    intro hB s hs
    have ha := hB a (by simp)
    simp only [sextets, List.mem_cons, List.mem_singleton] at hs
    rcases hs with rfl | rfl | h
    · omega
    · omega
    · simp at h
  | h2 a b =>
    intro hB s hs
    have ha := hB a (by simp)
    have hb := hB b (by simp)
    simp only [sextets, List.mem_cons, List.mem_singleton] at hs
    rcases hs with rfl | rfl | rfl | h
    · omega
    · omega
    · omega
    · simp at h
  | h3 a b c rest ih =>
    intro hB s hs
    have ha := hB a (by simp)
    have hb := hB b (by simp)
    have hc := hB c (by simp)
    simp only [sextets, List.mem_cons] at hs
    rcases hs with rfl | rfl | rfl | rfl | h
    · omega
    · omega
    · omega
    · omega
    · exact ih (fun x hx => hB x (by simp [hx])) s h

theorem padNum_le : ∀ B : List Nat, padNum B ≤ 2 := by
  intro B
  induction B using chunk3_induction with
  | h0 => simp [padNum]
  | h1 a => simp [padNum]
  | h2 a b => simp [padNum]
  | h3 a b c rest ih => simpa [padNum] using ih

theorem sextets_length_padNum : ∀ B : List Nat, ((sextets B).length + padNum B) % 4 = 0 := by
  intro B
  induction B using chunk3_induction with
  | h0 => simp [sextets, padNum]
  | h1 a => simp [sextets, padNum]
  | h2 a b => simp [sextets, padNum]
  | h3 a b c rest ih =>
    simp only [sextets, padNum, List.length_cons] at ih ⊢
    omega

theorem sextets_length_mod (B : List Nat) : (sextets B).length % 4 ≠ 1 := by
  have h1 := sextets_length_padNum B
  have h2 := padNum_le B
  omega

theorem encodeChunks_eq : ∀ B : List Nat,
    encodeChunks B = (sextets B).map b64Char ++ List.replicate (padNum B) ('=') := by
  intro B
  induction B using chunk3_induction with
  | h0 => simp [encodeChunks, sextets, padNum]
  | h1 a => simp [encodeChunks, sextets, padNum]
  | h2 a b => simp [encodeChunks, sextets, padNum]
  | h3 a b c rest ih => simp [encodeChunks, sextets, padNum, ih]

theorem decode_sextets : ∀ B : List Nat, (∀ b ∈ B, b < 256) →
    decodeChunks (sextets B) = B := by
  intro B
  induction B using chunk3_induction with
  | h0 => intro _; simp [sextets, decodeChunks]
  | h1 a =>
    intro hB
    have ha := hB a (by simp)
    simp only [sextets, decodeChunks, List.cons.injEq, and_true]
    omega
  | h2 a b =>
    intro hB
    have ha := hB a (by simp)
    have hb := hB b (by simp)
    simp only [sextets, decodeChunks, List.cons.injEq, and_true]
    constructor
    · omega
    · omega
  | h3 a b c rest ih =>
    intro hB
    have ha := hB a (by simp)
    have hb := hB b (by simp)
    have hc := hB c (by simp)
    simp only [sextets, decodeChunks, List.cons.injEq]
    refine ⟨by omega, by omega, by omega, ih (fun x hx => hB x (by simp [hx]))⟩

theorem stripPad2_spec (body : List Char) (hbody : ∀ c ∈ body, ¬(c = '=')) (k : Nat)
    (hk : k ≤ 2) : stripPad2 (body ++ List.replicate k ('=')) = body := by
  have hrev : (body ++ List.replicate k ('=')).reverse =
      List.replicate k ('=') ++ body.reverse := by
    rw [List.reverse_append, List.reverse_replicate]
  have hhead : ∀ t : List Char, body.reverse = ('=') :: t → False := by
    intro t ht
    have : ('=') ∈ body.reverse := by rw [ht]; simp
    exact hbody ('=') (List.mem_reverse.mp this) rfl
  unfold stripPad2
  rw [hrev]
  interval_cases k
  · simp only [List.replicate, List.nil_append]
    cases hr : body.reverse with
    | nil => simp
    | cons c t =>
      have hc : ¬(c = '=') := by
        intro h
        exact hhead t (by rw [hr, h])
      rw [if_neg, if_neg]
      · simp
      · simp only [List.take, List.cons.injEq]
        intro h
        exact hc h.1
      · cases t with
        | nil => simp [List.take]
        | cons c2 t2 =>
          simp only [List.take, List.cons.injEq]
          intro h
          exact hc h.1
  · simp only [List.replicate, List.cons_append, List.nil_append]
    cases hr : body.reverse with
    | nil =>
      rw [if_neg (by simp [List.take]), if_pos (by simp [List.take])]
      simp only [List.drop, List.drop_nil]
      rw [← hr]
      simp
    | cons c t =>
      have hc : ¬(c = '=') := by
        intro h
        exact hhead t (by rw [hr, h])
      rw [if_neg, if_pos (by simp [List.take])]
      · simp only [List.drop]
        rw [← hr]
        simp
      · simp only [List.take, List.cons.injEq]
        intro h
        exact hc h.2.1
  · simp only [List.replicate, List.cons_append, List.nil_append]
    rw [if_pos (by simp [List.take])]
    simp only [List.drop]
    simp

theorem stripAllPad_spec (body : List Char) (hbody : ∀ c ∈ body, ¬(c = '=')) (k : Nat) :
    stripAllPad (body ++ List.replicate k ('=')) = body := by
  unfold stripAllPad
  rw [List.reverse_append, List.reverse_replicate, List.dropWhile_append]
  have h1 : List.dropWhile (fun c => c == '=') (List.replicate k ('=')) = [] := by
    rw [List.dropWhile_replicate]
    simp
  rw [h1]
  simp only [List.isEmpty_nil, if_true]
  have h2 : List.dropWhile (fun c => c == '=') body.reverse = body.reverse := by
    cases hr : body.reverse with
    | nil => simp
    | cons c t =>
      have hc : c ∈ body := List.mem_reverse.mp (by rw [hr]; simp)
      rw [List.dropWhile_cons, if_neg (by simpa using hbody c hc)]
  rw [h2, List.reverse_reverse]

theorem filterMap_map_sextets (l : List Nat) (h : ∀ x ∈ l, x < 64) :
    (l.map b64Char).filterMap b64Sextet = l := by
  induction l with
  | nil => simp
  | cons a t ih =>
    simp only [List.map_cons, List.filterMap_cons,
      b64Char_sextet a (h a (by simp))]
    rw [ih (fun x hx => h x (by simp [hx]))]

theorem atob_body_pad (B : List Nat) (hB : ∀ b ∈ B, b < 256) (k : Nat) (hk : k ≤ 2)
    (hmod : ((sextets B).length + k) % 4 = 0) :
    atob ((sextets B).map b64Char ++ List.replicate k ('=')) = .ok B := by
  have hlt := sextets_lt B hB
  have hbody_ne : ∀ c ∈ (sextets B).map b64Char, ¬(c = '=') := by
    intro c hc
    simp only [List.mem_map] at hc
    obtain ⟨s, hs, rfl⟩ := hc
    exact b64Char_ne_pad s (hlt s hs)
  have hfilter : ((sextets B).map b64Char ++ List.replicate k ('=')).filter
      (fun c => !(isB64Ws c)) = (sextets B).map b64Char ++ List.replicate k ('=') := by
    rw [List.filter_eq_self]
    intro c hc
    rcases List.mem_append.mp hc with hc | hc
    · simp only [List.mem_map] at hc
      obtain ⟨s, hs, rfl⟩ := hc
      simp [b64Char_not_ws s (hlt s hs)]
    · rw [List.eq_of_mem_replicate hc]
      simp [pad_not_ws]
  have hlen : (((sextets B).map b64Char ++ List.replicate k ('=')).length) % 4 = 0 := by
    simp only [List.length_append, List.length_map, List.length_replicate]
    exact hmod
  have hstrip := stripPad2_spec ((sextets B).map b64Char) hbody_ne k hk
  have hmod1 : ¬(((sextets B).map b64Char).length % 4 = 1) := by
    simp only [List.length_map]
    exact sextets_length_mod B
  have hall : ((sextets B).map b64Char).all (fun c => (b64Sextet c).isSome) = true := by
    rw [List.all_eq_true]
    intro c hc
    simp only [List.mem_map] at hc
    obtain ⟨s, hs, rfl⟩ := hc
    rw [b64Char_sextet s (hlt s hs)]
    rfl
  simp only [atob, hfilter, hlen, if_true, hstrip, hmod1, if_false, hall,
    filterMap_map_sextets (sextets B) hlt, decode_sextets B hB]

theorem body_ne_pad (B : List Nat) (hB : ∀ b ∈ B, b < 256) :
    ∀ c ∈ (sextets B).map b64Char, ¬(c = '=') := by
  intro c hc
  simp only [List.mem_map] at hc
  obtain ⟨s, hs, rfl⟩ := hc
  exact b64Char_ne_pad s (sextets_lt B hB s hs)

/-! ## Claims about the text encoder -/

/-- Claim C6: Base64 and Base64URL encode-decode round-trips recover every
byte sequence, the empty one included; in particular the padding that
fromBase64Url re-derives from the input length mod 4 is correct for every
output of toBase64Url. -/
theorem c6_encoding_roundtrip (B : List Nat) (hB : ∀ b ∈ B, b < 256) :
    (toBase64 B).bind fromBase64 = .ok B
    ∧ (toBase64Url B).bind fromBase64Url = .ok B := by
  have hcond : B.all (· < 256) = true := by
    rw [List.all_eq_true]
    intro x hx
    simpa using hB x hx
  have h1 : toBase64 B = .ok (String.mk (encodeChunks B)) := by
    unfold toBase64 btoa
    rw [if_pos hcond]
    rfl
  have hfrom : fromBase64 (String.mk (encodeChunks B)) = .ok B := by
    show atob (String.mk (encodeChunks B)).toList = .ok B
    rw [show (String.mk (encodeChunks B)).toList = encodeChunks B from rfl,
      encodeChunks_eq B]
    exact atob_body_pad B hB (padNum B) (padNum_le B) (sextets_length_padNum B)
  refine ⟨?_, ?_⟩
  · rw [h1]
    simpa [Except.bind] using hfrom
  · have hbody_ne := body_ne_pad B hB
    have h2 : toBase64Url B =
        .ok (String.mk (((sextets B).map b64Char).map b64ToUrlChar)) := by
      unfold toBase64Url
      rw [h1]
      simp only [Except.map]
      rw [show (String.mk (encodeChunks B)).toList = encodeChunks B from rfl,
        encodeChunks_eq B, stripAllPad_spec _ hbody_ne (padNum B)]
    rw [h2]
    show fromBase64Url (String.mk (((sextets B).map b64Char).map b64ToUrlChar)) = .ok B
    unfold fromBase64Url
    have htl : (String.mk (((sextets B).map b64Char).map b64ToUrlChar)).toList =
        ((sextets B).map b64Char).map b64ToUrlChar := rfl
    rw [htl]
    have hu : (((sextets B).map b64Char).map b64ToUrlChar).map urlToB64Char =
        (sextets B).map b64Char := by
      rw [List.map_map, List.map_map]
      exact List.map_congr_left fun s hs =>
        b64Char_url_inv s (sextets_lt B hB s hs)
    have hulen : (((sextets B).map b64Char).map b64ToUrlChar).length =
        (sextets B).length := by
      simp
    rw [hu, hulen]
    have hmodL := sextets_length_mod B
    have hk : 3 - ((sextets B).length + 3) % 4 ≤ 2 := by omega
    have hmod2 : ((sextets B).length + (3 - ((sextets B).length + 3) % 4)) % 4 = 0 := by
      omega
    show atob (String.mk ((sextets B).map b64Char ++
        List.replicate (3 - ((sextets B).length + 3) % 4) ('='))).toList = .ok B
    rw [show (String.mk ((sextets B).map b64Char ++
        List.replicate (3 - ((sextets B).length + 3) % 4) ('='))).toList =
        (sextets B).map b64Char ++
          List.replicate (3 - ((sextets B).length + 3) % 4) ('=') from rfl]
    exact atob_body_pad B hB _ hk hmod2

/-- Witness for C6 at a concrete byte list. -/
theorem c6_witness :
    (toBase64 ([0, 255, 77])).bind fromBase64 = .ok [0, 255, 77]
    ∧ (toBase64Url ([0, 255, 77])).bind fromBase64Url = .ok [0, 255, 77] :=
  c6_encoding_roundtrip [0, 255, 77] (by decide)

/-- Counterexample to claim C7: fromBase64 accepts an input with missing
padding and an input holding a space, a character outside the Base64
alphabet, instead of failing on them. -/
theorem c7_counterexample :
    fromBase64 ("AQ") = .ok [1] ∧ fromBase64 ("A Q==") = .ok [1] := by
  constructor <;> rfl

/-- Claim C7 as amended: fromBase64 implements forgiving Base64 decoding:
it fails, always with InvalidEncoding, exactly on the inputs that remain
malformed after whitespace stripping and padding removal, and succeeds on
every other input; in particular the string of three percent signs
fails. -/
theorem c7_fromBase64_forgiving :
    (∀ s : String, (fromBase64 s = .error .invalidEncoding ↔ forgivingBad s.toList)
      ∧ (¬forgivingBad s.toList → ∃ B, fromBase64 s = .ok B))
    ∧ fromBase64 ("%%%") = .error .invalidEncoding := by
  constructor
  · intro s
    unfold fromBase64 atob forgivingBad
    set d0 := s.toList.filter (fun c => !(isB64Ws c)) with hd0
    set d := if d0.length % 4 = 0 then stripPad2 d0 else d0 with hd
    constructor
    · by_cases h1 : d.length % 4 = 1
      · simp [h1]
      · simp only [h1, if_false, false_or]
        by_cases h2 : d.all (fun c => (b64Sextet c).isSome) = true
        · rw [if_pos h2]
          rw [List.all_eq_true] at h2
          constructor
          · intro hcontra
            exact absurd hcontra (by simp)
          · rintro ⟨c, hc, hnone⟩
            have := h2 c hc
            rw [hnone] at this
            simp at this
        · rw [if_neg h2]
          simp only [true_iff]
          rw [List.all_eq_true] at h2
          push_neg at h2
          obtain ⟨c, hc, hns⟩ := h2
          exact ⟨c, hc, Option.not_isSome_iff_eq_none.mp (by simpa using hns)⟩
    · intro hgood
      rw [not_or] at hgood
      obtain ⟨hg1, hg2⟩ := hgood
      rw [if_neg hg1, if_pos ?_]
      · exact ⟨_, rfl⟩
      · rw [List.all_eq_true]
        intro c hc
        by_contra hns
        exact hg2 ⟨c, hc, Option.not_isSome_iff_eq_none.mp (by simpa using hns)⟩
  · rfl

/-- Witness for C7: an unpadded well-formed input decodes. -/
theorem c7_witness : ∃ B, fromBase64 ("AQ") = .ok B :=
  (c7_fromBase64_forgiving.1 ("AQ")).2 (by decide)

/-- Claim C8: the RFC 4648 padding literals: toBase64 of one, two and
three bytes yields the expected padded strings. -/
theorem c8_padding_literals :
    toBase64 [1] = .ok ("AQ==") ∧ toBase64 [1, 2] = .ok ("AQI=")
    ∧ toBase64 [1, 2, 3] = .ok ("AQID") := by
  refine ⟨rfl, rfl, rfl⟩

end CryptoToolkit
